import Mathlib

/-!
Shallow embedding of the signet-filler order-filling agent.

Machine integers (`alloy` `U256`, Rust `u8`/`u64`) are modelled as `Nat` with
explicit bounds: `checked_*` operations return `Option Nat` and fail exactly
when the mathematical result does not fit in 256 bits (or, for `checked_div`,
when the divisor is zero), `saturating_add` clamps at `2^256 - 1`, and the
plain (release-mode wrapping) operators reduce modulo `2^256`.
-/

deriving instance DecidableEq for Except

namespace SignetFiller

/-- `2^256`, the number of values of the `U256` type. -/
def U256LIMIT : Nat := 2 ^ 256

/-- `U256::checked_add`: `none` exactly when the sum does not fit in 256 bits. -/
def checked_add (a b : Nat) : Option Nat :=
  if a + b < U256LIMIT then some (a + b) else none

/-- `U256::checked_mul`: `none` exactly when the product does not fit in 256 bits. -/
def checked_mul (a b : Nat) : Option Nat :=
  if a * b < U256LIMIT then some (a * b) else none

/-- `U256::checked_div`: integer division, `none` exactly on a zero divisor. -/
def checked_div (a b : Nat) : Option Nat :=
  if b = 0 then none else some (a / b)

/-- Unsigned `checked_sub` (used at `u8` width): `none` exactly when `b > a`. -/
def checked_sub (a b : Nat) : Option Nat :=
  if b ≤ a then some (a - b) else none

/-- `U256::checked_pow`: `none` exactly when the power does not fit in 256 bits. -/
def checked_pow (a b : Nat) : Option Nat :=
  if a ^ b < U256LIMIT then some (a ^ b) else none

/-- `U256::saturating_add`: clamps at `U256::MAX = 2^256 - 1`. -/
def saturating_add (a b : Nat) : Nat :=
  min (a + b) (U256LIMIT - 1)

/-- Release-mode `U256` addition (wrapping). -/
def wrapping_add (a b : Nat) : Nat :=
  (a + b) % U256LIMIT

/-- Release-mode `U256` multiplication (wrapping). -/
def wrapping_mul (a b : Nat) : Nat :=
  (a * b) % U256LIMIT

/-! ## Data model (`signet_types::SignedOrder` and friends)

Addresses, chain ids and order hashes are opaque identifiers; we model them
as `Nat`. A `SignedOrder` carries its permit (input allowances plus nonce and
owner), its outputs, and its content hash, which the filler uses as cache key.
-/

/-- One `(token, amount)` input allowance (`TokenPermissions`). -/
structure TokenPermissions where
  token : Nat
  amount : Nat
deriving DecidableEq, Repr

/-- One `(token, amount, chain, recipient)` output obligation (`Output`). -/
structure Output where
  token : Nat
  amount : Nat
  recipient : Nat
  chainId : Nat
deriving DecidableEq, Repr

/-- A signed order: permit inputs, permit nonce, owner, outputs, content hash. -/
structure SignedOrder where
  permitted : List TokenPermissions
  nonce : Nat
  owner : Nat
  outputs : List Output
  orderHash : Nat
deriving DecidableEq, Repr

/-- `FillCostEstimate` as produced by every pricing strategy. -/
structure FillCostEstimate where
  estimated_gas : Nat
  estimated_gas_cost : Nat
  total_input_value : Nat
  total_output_value : Nat
deriving DecidableEq, Repr

/-! ## Radius quoting strategy (`src/pricing/radius_client.rs`) -/

/-- Maximum number of output groups supported per order. -/
def MAX_SUPPORTED_OUTPUT_GROUPS : Nat := 10

/-- Precision multiplier for weight calculations: `10^18`. -/
def PRECISION : Nat := 10 ^ 18

/-- An aggregated input for a unique token (`InputGroup`). -/
structure InputGroup where
  token : Nat
  amount : Nat
deriving DecidableEq, Repr

/-- An aggregated output requirement for a unique `(token, chain)` pair. -/
structure OutputGroup where
  token : Nat
  chain_id : Nat
  required : Nat
deriving DecidableEq, Repr

/-- A round-1 quote pairing an `OutputGroup` with the output quoted for the full input. -/
structure OutputQuote where
  group : OutputGroup
  quoted : Nat
deriving DecidableEq, Repr

/-- A computed input allocation for an `OutputGroup` (`InputSplit`). -/
structure InputSplit where
  group : OutputGroup
  amount : Nat
deriving DecidableEq, Repr

/-- Errors of the Radius quoting strategy (`RadiusPricingError`). Network-error
payloads (`reqwest` errors, response bodies) are irrelevant to the verified
properties and elided to the status code / unit. -/
inductive RadiusPricingError where
  | NoInputs
  | NoOutputs
  | TooManyOutputs (n : Nat)
  | MultipleInputsMultipleOutputs
  | Overflow
  | RequestFailed
  | ApiError (status : Nat)
  | InvalidResponse
deriving DecidableEq, Repr

/-- `weight_i = required_i * PRECISION / quoted_i`, with checked
multiplication and division (the `map` body inside `compute_output_splits`). -/
def weight_of (q : OutputQuote) : Option Nat :=
  (checked_mul q.group.required PRECISION).bind fun scaled =>
    checked_div scaled q.quoted

/-- The weight-collection loop of `compute_output_splits`: first failing
element aborts with `Overflow` (Rust `collect::<Result<_,_>>`). -/
def compute_weights : List OutputQuote → Except RadiusPricingError (List Nat)
  | [] => .ok []
  | q :: rest =>
    match weight_of q with
    | none => .error .Overflow
    | some w => (compute_weights rest).map fun ws => w :: ws

/-- `checked_sum` generalized over the accumulator (Rust `try_fold`). -/
def checked_sum_from (acc : Nat) : List Nat → Except RadiusPricingError Nat
  | [] => .ok acc
  | v :: rest =>
    match checked_add acc v with
    | none => .error .Overflow
    | some s => checked_sum_from s rest

/-- Sum a slice of `U256` values with checked arithmetic (`checked_sum`). -/
def checked_sum (values : List Nat) : Except RadiusPricingError Nat :=
  checked_sum_from 0 values

/-- The split-computation loop of `compute_output_splits`:
`split_i = input * weight_i / total_weight` with checked arithmetic,
over the zipped quotes and weights. -/
def compute_splits_from (input_amount total_weight : Nat) :
    List (OutputQuote × Nat) → Except RadiusPricingError (List InputSplit)
  | [] => .ok []
  | (q, w) :: rest =>
    match (checked_mul input_amount w).bind fun scaled => checked_div scaled total_weight with
    | none => .error .Overflow
    | some amount =>
      (compute_splits_from input_amount total_weight rest).map fun l =>
        { group := q.group, amount := amount } :: l

/-- `compute_output_splits`: split a single input amount across output groups
proportionally to `weight_i = required_i * PRECISION / quoted_i`. -/
def compute_output_splits (input_amount : Nat) (quotes : List OutputQuote) :
    Except RadiusPricingError (List InputSplit) :=
  match compute_weights quotes with
  | .error e => .error e
  | .ok weights =>
    match checked_sum weights with
    | .error e => .error e
    | .ok total_weight => compute_splits_from input_amount total_weight (quotes.zip weights)

/-- Unbounded (specification-level) weight of a quote; coincides with
`weight_of` whenever the checked computation succeeds. -/
def weight_spec (q : OutputQuote) : Nat :=
  q.group.required * PRECISION / q.quoted

/-- The external Radius quote service, abstracted as a function of the request
parameters `(fromToken, toToken, toChainId, amountIn, userAddress)` sent by
`request_quote` (with `fromChainId` fixed by the client). -/
def QuoteFn : Type :=
  Nat → Nat → Nat → Nat → Nat → Except RadiusPricingError Nat

/-- One step of input aggregation: add `amount` of `token` to an existing
group with the same token (checked), or push a fresh group. -/
def add_input : List InputGroup → Nat → Nat → Except RadiusPricingError (List InputGroup)
  | [], token, amount => .ok [{ token := token, amount := amount }]
  | g :: gs, token, amount =>
    if g.token = token then
      match checked_add g.amount amount with
      | none => .error .Overflow
      | some s => .ok ({ token := g.token, amount := s } :: gs)
    else
      (add_input gs token amount).map fun gs2 => g :: gs2

/-- Aggregate permit inputs by token (the first loop of `estimate_fill_cost`). -/
def aggregate_inputs (groups : List InputGroup) :
    List TokenPermissions → Except RadiusPricingError (List InputGroup)
  | [] => .ok groups
  | p :: rest =>
    match add_input groups p.token p.amount with
    | .error e => .error e
    | .ok groups2 => aggregate_inputs groups2 rest

/-- One step of output aggregation: add `amount` to an existing group with the
same `(token, chain_id)` key (checked), or push a fresh group. -/
def add_output : List OutputGroup → Nat → Nat → Nat → Except RadiusPricingError (List OutputGroup)
  | [], token, chain_id, amount => .ok [{ token := token, chain_id := chain_id, required := amount }]
  | g :: gs, token, chain_id, amount =>
    if g.token = token ∧ g.chain_id = chain_id then
      match checked_add g.required amount with
      | none => .error .Overflow
      | some s => .ok ({ token := g.token, chain_id := g.chain_id, required := s } :: gs)
    else
      (add_output gs token chain_id amount).map fun gs2 => g :: gs2

/-- Aggregate outputs by `(token, chain_id)` (the second loop of `estimate_fill_cost`). -/
def aggregate_outputs (groups : List OutputGroup) :
    List Output → Except RadiusPricingError (List OutputGroup)
  | [] => .ok groups
  | o :: rest =>
    match add_output groups o.token o.chainId o.amount with
    | .error e => .error e
    | .ok groups2 => aggregate_outputs groups2 rest

/-- Quote every input group's full amount against the single output group
(the fan-out inside `quote_inputs`; value-level result of `try_join_all`). -/
def quote_inputs_round (quote : QuoteFn) (output_group : OutputGroup) (owner : Nat) :
    List InputGroup → Except RadiusPricingError (List Nat)
  | [] => .ok []
  | g :: rest =>
    match quote g.token output_group.token output_group.chain_id g.amount owner with
    | .error e => .error e
    | .ok q => (quote_inputs_round quote output_group owner rest).map fun qs => q :: qs

/-- `quote_inputs`: quote all input groups against one output group and return
the checked sum of the quoted output amounts. -/
def quote_inputs (quote : QuoteFn) (input_groups : List InputGroup)
    (output_group : OutputGroup) (owner : Nat) : Except RadiusPricingError Nat :=
  match quote_inputs_round quote output_group owner input_groups with
  | .error e => .error e
  | .ok quotes => checked_sum quotes

/-- Round 1 of `quote_outputs`: quote the full input amount against each
output group. -/
def quote_round1 (quote : QuoteFn) (input_group : InputGroup) (owner : Nat) :
    List OutputGroup → Except RadiusPricingError (List Nat)
  | [] => .ok []
  | g :: rest =>
    match quote input_group.token g.token g.chain_id input_group.amount owner with
    | .error e => .error e
    | .ok q => (quote_round1 quote input_group owner rest).map fun qs => q :: qs

/-- Round 2 of `quote_outputs`: re-quote each output group at its split amount. -/
def quote_round2 (quote : QuoteFn) (from_token owner : Nat) :
    List InputSplit → Except RadiusPricingError (List Nat)
  | [] => .ok []
  | s :: rest =>
    match quote from_token s.group.token s.group.chain_id s.amount owner with
    | .error e => .error e
    | .ok q => (quote_round2 quote from_token owner rest).map fun qs => q :: qs

/-- Per-group effective cost in input-token terms: the split amount if the
round-2 quote covers the requirement, otherwise the extrapolated
`split * required / round2_out` (checked). -/
def per_output_cost (split : InputSplit) (round2_out : Nat) : Except RadiusPricingError Nat :=
  if split.group.required ≤ round2_out then .ok split.amount
  else
    match (checked_mul split.amount split.group.required).bind fun product =>
        checked_div product round2_out with
    | none => .error .Overflow
    | some c => .ok c

/-- The cost-accumulation loop of `quote_outputs` (checked sum of per-group costs). -/
def total_cost_from (acc : Nat) : List (InputSplit × Nat) → Except RadiusPricingError Nat
  | [] => .ok acc
  | (s, r) :: rest =>
    match per_output_cost s r with
    | .error e => .error e
    | .ok cost =>
      match checked_add acc cost with
      | none => .error .Overflow
      | some acc2 => total_cost_from acc2 rest

/-- `quote_outputs`: two-round quoting of a single input group against
multiple output groups; `total_input_value` is the input amount,
`total_output_value` the effective cost to cover all outputs. -/
def quote_outputs (quote : QuoteFn) (input_group : InputGroup)
    (output_groups : List OutputGroup) (owner : Nat) :
    Except RadiusPricingError FillCostEstimate :=
  match quote_round1 quote input_group owner output_groups with
  | .error e => .error e
  | .ok round1_results =>
    let output_quotes := (output_groups.zip round1_results).map fun gq =>
      OutputQuote.mk gq.1 gq.2
    match compute_output_splits input_group.amount output_quotes with
    | .error e => .error e
    | .ok splits =>
      match quote_round2 quote input_group.token owner splits with
      | .error e => .error e
      | .ok round2_results =>
        match total_cost_from 0 (splits.zip round2_results) with
        | .error e => .error e
        | .ok total_cost =>
          .ok { estimated_gas := 0, estimated_gas_cost := 0,
                total_input_value := input_group.amount, total_output_value := total_cost }

/-- `RadiusPricingClient::estimate_fill_cost`, with the network abstracted as
a `QuoteFn`. The `[0]` indexing of the Rust source is expressed by matching;
the empty cases are unreachable because the order's inputs/outputs are
non-empty (the guards above), and are mapped to the corresponding `No*` error. -/
def Radius_estimate_fill_cost (quote : QuoteFn) (order : SignedOrder) :
    Except RadiusPricingError FillCostEstimate :=
  if order.permitted.isEmpty then .error .NoInputs
  else if order.outputs.isEmpty then .error .NoOutputs
  else
    match aggregate_inputs [] order.permitted with
    | .error e => .error e
    | .ok input_groups =>
      match aggregate_outputs [] order.outputs with
      | .error e => .error e
      | .ok output_groups =>
        if MAX_SUPPORTED_OUTPUT_GROUPS < output_groups.length then
          .error (.TooManyOutputs output_groups.length)
        else if 1 < input_groups.length ∧ 1 < output_groups.length then
          .error .MultipleInputsMultipleOutputs
        else if 1 < output_groups.length then
          match input_groups with
          | [] => .error .NoInputs
          | i0 :: _ => quote_outputs quote i0 output_groups order.owner
        else
          match output_groups with
          | [] => .error .NoOutputs
          | g0 :: _ =>
            match quote_inputs quote input_groups g0 order.owner with
            | .error e => .error e
            | .ok total_input_value =>
              .ok { estimated_gas := 0, estimated_gas_cost := 0,
                    total_input_value := total_input_value,
                    total_output_value := g0.required }

/-- `RadiusPricingClient::is_profitable`: quoted value covers required value. -/
def Radius_is_profitable (quote : QuoteFn) (order : SignedOrder) :
    Except RadiusPricingError Bool :=
  match Radius_estimate_fill_cost quote order with
  | .error e => .error e
  | .ok estimate => .ok (decide (estimate.total_output_value ≤ estimate.total_input_value))

/-! ## Static pricing strategy (`src/pricing/static_client.rs`) -/

/-- `StaticPricingClient` configuration. -/
structure StaticPricingClient where
  min_profit_threshold : Nat
  gas_estimate_per_order : Nat
  gas_price_gwei : Nat
deriving DecidableEq, Repr

/-- `StaticPricingError`. -/
inductive StaticPricingError where
  | NoInputs
  | NoOutputs
deriving DecidableEq, Repr

/-- `calculate_total_input_value`: fold over the permit amounts with the
plain (wrapping) `U256` addition. -/
def calculate_total_input_value (order : SignedOrder) : Nat :=
  order.permitted.foldl (fun acc perm => wrapping_add acc perm.amount) 0

/-- `calculate_total_output_value`: fold over the output amounts with the
plain (wrapping) `U256` addition. -/
def calculate_total_output_value (order : SignedOrder) : Nat :=
  order.outputs.foldl (fun acc output => wrapping_add acc output.amount) 0

/-- `StaticPricingClient::estimate_fill_cost`. -/
def Static_estimate_fill_cost (c : StaticPricingClient) (order : SignedOrder) :
    Except StaticPricingError FillCostEstimate :=
  if order.permitted.isEmpty then .error .NoInputs
  else if order.outputs.isEmpty then .error .NoOutputs
  else
    let estimated_gas_cost :=
      wrapping_mul (wrapping_mul c.gas_estimate_per_order c.gas_price_gwei) 1000000000
    .ok { estimated_gas := c.gas_estimate_per_order,
          estimated_gas_cost := estimated_gas_cost,
          total_input_value := calculate_total_input_value order,
          total_output_value := calculate_total_output_value order }

/-- `StaticPricingClient::is_profitable`: input covers output + gas + minimum
profit, with saturating additions. -/
def Static_is_profitable (c : StaticPricingClient) (order : SignedOrder) :
    Except StaticPricingError Bool :=
  match Static_estimate_fill_cost c order with
  | .error e => .error e
  | .ok estimate =>
    let total_cost :=
      saturating_add (saturating_add estimate.total_output_value estimate.estimated_gas_cost)
        c.min_profit_threshold
    .ok (decide (total_cost ≤ estimate.total_input_value))

/-! ## Fixed-table pricing strategy (`src/fixed_pricing_client.rs`) -/

/-- Token metadata used in value normalization. -/
structure TokenInfo where
  decimals : Nat
  price_usd : Nat
deriving DecidableEq, Repr

/-- `FixedPricingError`. -/
inductive FixedPricingError where
  | NoInputs
  | NoOutputs
  | UnknownToken (a : Nat)
  | Overflow
deriving DecidableEq, Repr

/-- `FixedPricingClient`: the `HashMap<Address, TokenInfo>` built at
construction is modelled as its lookup function. -/
structure FixedPricingClient where
  max_loss_percent : Nat
  token_info : Nat → Option TokenInfo

/-- The `try_sum` closure of `is_acceptable`: normalize one raw amount to an
18-decimal USD-equivalent value and add it to the running total, all checked:
`running_total + amount * price_usd * 10^(18 - decimals)`. -/
def try_sum (c : FixedPricingClient) (running_total token amount : Nat) :
    Except FixedPricingError Nat :=
  match c.token_info token with
  | none => .error (.UnknownToken token)
  | some info =>
    match (checked_sub 18 info.decimals).bind (fun exponent =>
        (checked_pow 10 exponent).bind fun scale =>
          (checked_mul info.price_usd scale).bind fun multiplier =>
            (checked_mul amount multiplier).bind fun normalized =>
              checked_add running_total normalized) with
    | none => .error .Overflow
    | some total => .ok total

/-- The `try_fold` over `(token, amount)` pairs used for both input and
output normalization in `is_acceptable`. -/
def try_fold_sum (c : FixedPricingClient) (acc : Nat) :
    List (Nat × Nat) → Except FixedPricingError Nat
  | [] => .ok acc
  | (token, amount) :: rest =>
    match try_sum c acc token amount with
    | .error e => .error e
    | .ok acc2 => try_fold_sum c acc2 rest

/-- The `(token, amount)` pairs of an order's permit inputs. -/
def input_pairs (order : SignedOrder) : List (Nat × Nat) :=
  order.permitted.map fun p => (p.token, p.amount)

/-- The `(token, amount)` pairs of an order's outputs. -/
def output_pairs (order : SignedOrder) : List (Nat × Nat) :=
  order.outputs.map fun o => (o.token, o.amount)

/-- `FixedPricingClient::is_acceptable`: normalize inputs and outputs and
accept iff `input * 100 >= output * (100 - max_loss_percent)` (all checked). -/
def is_acceptable (c : FixedPricingClient) (order : SignedOrder) :
    Except FixedPricingError Bool :=
  if order.permitted.isEmpty then .error .NoInputs
  else if order.outputs.isEmpty then .error .NoOutputs
  else
    match try_fold_sum c 0 (input_pairs order) with
    | .error e => .error e
    | .ok normalized_total_input =>
      match try_fold_sum c 0 (output_pairs order) with
      | .error e => .error e
      | .ok normalized_total_output =>
        match checked_mul normalized_total_input 100 with
        | none => .error .Overflow
        | some lhs =>
          match (checked_sub 100 c.max_loss_percent).bind fun percent =>
              checked_mul normalized_total_output percent with
          | none => .error .Overflow
          | some rhs => .ok (decide (rhs ≤ lhs))

/-- Unbounded (specification-level) normalized USD value of one amount. -/
def norm_value (info : TokenInfo) (amount : Nat) : Nat :=
  amount * (info.price_usd * 10 ^ (18 - info.decimals))

/-- Unbounded (specification-level) normalized total over `(token, amount)`
pairs; `none` iff some token is missing from the table. -/
def norm_total (c : FixedPricingClient) : List (Nat × Nat) → Option Nat
  | [] => some 0
  | (token, amount) :: rest =>
    (c.token_info token).bind fun info =>
      (norm_total c rest).map fun total => norm_value info amount + total

/-! ## Filler task (`src/filler_task/mod.rs`)

The filled-order LRU cache (`LruCache<B256, ()>`) is modelled as a list of
order hashes in recency order: `contains` is membership (the `lru` crate's
`contains` does not touch recency), `put` moves/pushes the hash to the front
and truncates to the capacity. The rollup chain is abstracted as the
`nonceBitmap` read function `owner → word_pos → Option bitmap` (`none` models
an RPC error), and the transaction-cache order stream as a list of
`Except`-wrapped orders. A cycle reports, besides its `Result<()>`, the
on-chain reads it issued (tagged by order hash) and the submitted bundle, so
that the claims about those effects are statable. -/

/-- `FILLED_ORDERS_CACHE_SIZE`. -/
def FILLED_ORDERS_CACHE_SIZE : Nat := 10240

/-- `LruCache::put` of an order hash (unit value elided). -/
def lru_put (cache : List Nat) (h : Nat) : List Nat :=
  (h :: cache.erase h).take FILLED_ORDERS_CACHE_SIZE

/-- `LruCache::contains`. -/
def lru_contains (cache : List Nat) (h : Nat) : Bool :=
  cache.contains h

/-- The `nonceBitmap` view of the rollup chain: `owner → word_pos → result`,
where `none` is an RPC failure. -/
def ChainReadFn : Type := Nat → Nat → Option Nat

/-- An on-chain `nonceBitmap` call record: (order hash it was issued for,
owner queried, word position queried). -/
structure ChainCall where
  order_hash : Nat
  owner : Nat
  word_pos : Nat
deriving DecidableEq, Repr

/-- `FillerTask::not_in_filled_cache`: drop the order on a cache hit.
Never returns `Err` (the `FillerError` slot is only for the stream type). -/
def not_in_filled_cache (cache : List Nat) (order : SignedOrder) :
    Except Nat (Option SignedOrder) :=
  if lru_contains cache order.orderHash then .ok none else .ok (some order)

/-- `FillerTask::profitable`: keep the order only when the pricing client
says `Ok(true)`; a pricing error drops the order (`Ok(None)`), never `Err`. -/
def profitable (c : StaticPricingClient) (order : SignedOrder) :
    Except Nat (Option SignedOrder) :=
  match Static_is_profitable c order with
  | .ok true => .ok (some order)
  | .ok false => .ok none
  | .error _ => .ok none

/-- `word_pos = nonce >> 8`. -/
def word_pos (nonce : Nat) : Nat := nonce >>> 8

/-- `bit_pos = nonce & 0xFF`. -/
def bit_pos (nonce : Nat) : Nat := Nat.land nonce 0xFF

/-- `FillerTask::unfilled`: read the owner's nonce-bitmap word and test the
nonce bit. Returns the updated cache, the issued chain call, and the order if
it is still fillable. A failed read keeps the order and leaves the cache
untouched. -/
def unfilled (read : ChainReadFn) (cache : List Nat) (order : SignedOrder) :
    List Nat × List ChainCall × Option SignedOrder :=
  let wp := word_pos order.nonce
  let call : ChainCall := { order_hash := order.orderHash, owner := order.owner, word_pos := wp }
  match read order.owner wp with
  | none => (cache, [call], some order)
  | some bitmap =>
    if Nat.land (bitmap >>> bit_pos order.nonce) 1 ≠ 0 then
      (lru_put cache order.orderHash, [call], none)
    else
      (cache, [call], some order)

/-- The nonce-check fan-out of `process_orders` over the candidate list,
threading the cache through the `unfilled` calls. -/
def verify_all (read : ChainReadFn) (cache : List Nat) :
    List SignedOrder → List Nat × List ChainCall × List SignedOrder
  | [] => (cache, [], [])
  | order :: rest =>
    let step := unfilled read cache order
    let next := verify_all read step.1 rest
    (next.1, step.2.1 ++ next.2.1, step.2.2.toList ++ next.2.2)

/-- The candidate-collection stage of `process_orders`: the
`get_orders().try_filter_map(not_in_filled_cache).try_filter_map(profitable).try_collect()`
chain. An `Err` item in the stream aborts the whole collection. -/
def collect_candidates (c : StaticPricingClient) (cache : List Nat) :
    List (Except Nat SignedOrder) → Except Nat (List SignedOrder)
  | [] => .ok []
  | .error e :: _ => .error e
  | .ok order :: rest =>
    match not_in_filled_cache cache order with
    | .error e => .error e
    | .ok none => collect_candidates c cache rest
    | .ok (some order1) =>
      match profitable c order1 with
      | .error e => .error e
      | .ok none => collect_candidates c cache rest
      | .ok (some order2) => (collect_candidates c cache rest).map fun l => order2 :: l

/-- The observable outcome of one `process_orders` cycle: its `Result<()>`
(`none` = `Ok(())`), the cache afterwards, the chain calls issued, the orders
passed to `Filler::fill`, and the bundle id when submission succeeded. -/
structure CycleOut where
  result : Option Nat
  cache : List Nat
  calls : List ChainCall
  submitted : List SignedOrder
  bundle_id : Option Nat

/-- `FillerTask::process_orders`: fetch/filter candidates, verify nonces
concurrently, submit survivors as one bundle. A submission failure is only
logged; the cycle still returns `Ok(())`. -/
def process_orders (c : StaticPricingClient) (cache : List Nat)
    (stream : List (Except Nat SignedOrder)) (read : ChainReadFn)
    (submit : List SignedOrder → Except Nat Nat) : CycleOut :=
  match collect_candidates c cache stream with
  | .error e => { result := some e, cache := cache, calls := [], submitted := [], bundle_id := none }
  | .ok candidates =>
    if candidates.isEmpty then
      { result := none, cache := cache, calls := [], submitted := [], bundle_id := none }
    else
      let verified := verify_all read cache candidates
      let orders_to_fill := verified.2.2
      if orders_to_fill.isEmpty then
        { result := none, cache := verified.1, calls := verified.2.1,
          submitted := [], bundle_id := none }
      else
        match submit orders_to_fill with
        | .ok id =>
          { result := none, cache := verified.1, calls := verified.2.1,
            submitted := orders_to_fill, bundle_id := some id }
        | .error _ =>
          { result := none, cache := verified.1, calls := verified.2.1,
            submitted := orders_to_fill, bundle_id := none }

/-- The inputs of one scheduler tick: the fetched order stream, the chain
read function, and the submission outcome function for this cycle. -/
structure CycleInput where
  stream : List (Except Nat SignedOrder)
  read : ChainReadFn
  submit : List SignedOrder → Except Nat Nat

/-- Run a sequence of pipeline cycles, threading the filled-order cache
(which is the only state `process_orders` mutates). -/
def run_cycles (c : StaticPricingClient) (cache : List Nat) :
    List CycleInput → List Nat
  | [] => cache
  | ci :: rest =>
    run_cycles c (process_orders c cache ci.stream ci.read ci.submit).cache rest

/-- The proposition that cycle `ci` contained an authoritative on-chain
observation of order hash `h` with the nonce bit set: some fetched order with
hash `h` whose owner's bitmap word at `nonce >> 8` was read successfully with
bit `nonce & 0xFF` set. -/
def observed_filled (ci : CycleInput) (h : Nat) : Prop :=
  ∃ order bitmap, Except.ok order ∈ ci.stream ∧ order.orderHash = h ∧
    ci.read order.owner (word_pos order.nonce) = some bitmap ∧
    Nat.testBit bitmap (order.nonce % 256) = true

/-! ## Concrete fixtures (mirroring the repository's test fixtures) -/

/-- A token table holding one 6-decimal, price-1 token at address 1 (the
shape of the USDC entry of the fixed table). -/
def example_token_info : Nat → Option TokenInfo :=
  fun token => if token = 1 then some { decimals := 6, price_usd := 1 } else none

/-- A fixed-table client over `example_token_info` (the `parmigiana_client`
test fixture). -/
def example_fixed_client (max_loss_percent : Nat) : FixedPricingClient :=
  { max_loss_percent := max_loss_percent, token_info := example_token_info }

/-- An order with one input and one output of the 6-decimal token at the
given raw amounts (the `usdc_order` test fixture). -/
def usdc_order (input_amount output_amount : Nat) : SignedOrder :=
  { permitted := [{ token := 1, amount := input_amount }]
    nonce := 0
    owner := 0
    outputs := [{ token := 1, amount := output_amount, recipient := 0, chainId := 0 }]
    orderHash := 0 }

/-- A minimal profitable order: 5 in, 3 out, nonce 0, hash 42. -/
def example_order : SignedOrder :=
  { permitted := [{ token := 0, amount := 5 }]
    nonce := 0
    owner := 7
    outputs := [{ token := 0, amount := 3, recipient := 0, chainId := 0 }]
    orderHash := 42 }

/-- A cycle whose stream carries `example_order` and whose chain reports
every nonce bit set (bitmap of all ones at word 0). -/
def example_cycle : CycleInput :=
  { stream := [.ok example_order]
    read := fun _ _ => some 1
    submit := fun _ => .ok 0 }

/-! ## Helper lemmas: checked arithmetic -/

theorem checked_add_some {a b s : Nat} (h : checked_add a b = some s) : s = a + b := by
  unfold checked_add at h
  split at h <;> simp_all

theorem checked_mul_some {a b s : Nat} (h : checked_mul a b = some s) : s = a * b := by
  unfold checked_mul at h
  split at h <;> simp_all

theorem checked_div_some {a b s : Nat} (h : checked_div a b = some s) : b ≠ 0 ∧ s = a / b := by
  unfold checked_div at h
  split at h <;> simp_all

theorem checked_sub_some {a b s : Nat} (h : checked_sub a b = some s) : b ≤ a ∧ s = a - b := by
  unfold checked_sub at h
  split at h <;> simp_all

theorem checked_pow_some {a b s : Nat} (h : checked_pow a b = some s) : s = a ^ b := by
  unfold checked_pow at h
  split at h <;> simp_all

/-! ## Helper lemmas: the proportional-split computation -/

theorem weight_of_some {q : OutputQuote} {w : Nat} (h : weight_of q = some w) :
    q.quoted ≠ 0 ∧ w = weight_spec q := by
  unfold weight_of at h
  cases hm : checked_mul q.group.required PRECISION with
  | none => simp [hm] at h
  | some scaled =>
    rw [hm] at h
    rw [Option.some_bind] at h
    obtain ⟨hq, hw⟩ := checked_div_some h
    exact ⟨hq, by rw [hw, checked_mul_some hm, weight_spec]⟩

theorem weight_of_zero {q : OutputQuote} (h : q.quoted = 0) : weight_of q = none := by
  unfold weight_of
  cases hm : checked_mul q.group.required PRECISION with
  | none => rfl
  | some scaled => simp [checked_div, h]

theorem compute_weights_ok : ∀ {quotes : List OutputQuote} {ws : List Nat},
    compute_weights quotes = .ok ws → ws = quotes.map weight_spec := by
  intro quotes
  induction quotes with
  | nil => intro ws h; simp [compute_weights] at h; simp_all
  | cons q rest ih =>
    intro ws h
    unfold compute_weights at h
    cases hw : weight_of q with
    | none => rw [hw] at h; exact absurd h (by simp)
    | some w =>
      rw [hw] at h
      cases hr : compute_weights rest with
      | error e => rw [hr] at h; exact absurd h (by simp [Except.map])
      | ok ws2 =>
        rw [hr] at h
        simp only [Except.map, Except.ok.injEq] at h
        rw [← h, List.map_cons, ← ih hr, (weight_of_some hw).2]

theorem compute_weights_err_of_zero : ∀ {quotes : List OutputQuote}, (∃ q ∈ quotes, q.quoted = 0) →
    compute_weights quotes = .error .Overflow := by
  intro quotes
  induction quotes with
  | nil => rintro ⟨q, hq, _⟩; exact absurd hq (by simp)
  | cons q0 rest ih =>
    rintro ⟨q, hq, hz⟩
    unfold compute_weights
    rcases List.mem_cons.mp hq with rfl | hmem
    · rw [weight_of_zero hz]
    · cases hw : weight_of q0 with
      | none => rfl
      | some w => rw [ih ⟨q, hmem, hz⟩]; rfl

theorem compute_weights_total : ∀ quotes : List OutputQuote,
    (∃ ws, compute_weights quotes = .ok ws) ∨ compute_weights quotes = .error .Overflow := by
  intro quotes
  induction quotes with
  | nil => exact .inl ⟨[], rfl⟩
  | cons q rest ih =>
    unfold compute_weights
    cases hw : weight_of q with
    | none => exact .inr rfl
    | some w =>
      rcases ih with ⟨ws, hws⟩ | herr
      · exact .inl ⟨w :: ws, by rw [hws]; rfl⟩
      · exact .inr (by rw [herr]; rfl)

theorem checked_sum_from_ok : ∀ {l : List Nat} {acc s : Nat},
    checked_sum_from acc l = .ok s → s = acc + l.sum := by
  intro l
  induction l with
  | nil => intro acc s h; simp [checked_sum_from] at h; simp_all
  | cons v rest ih =>
    intro acc s h
    unfold checked_sum_from at h
    cases ha : checked_add acc v with
    | none => rw [ha] at h; exact absurd h (by simp)
    | some acc2 =>
      rw [ha] at h
      have := ih h
      rw [this, checked_add_some ha, List.sum_cons]
      omega

theorem checked_sum_from_total : ∀ (l : List Nat) (acc : Nat),
    (∃ s, checked_sum_from acc l = .ok s) ∨ checked_sum_from acc l = .error .Overflow := by
  intro l
  induction l with
  | nil => exact fun acc => .inl ⟨acc, rfl⟩
  | cons v rest ih =>
    intro acc
    unfold checked_sum_from
    cases ha : checked_add acc v with
    | none => exact .inr rfl
    | some acc2 => exact ih acc2

theorem compute_splits_from_ok : ∀ {pairs : List (OutputQuote × Nat)}
    {input W : Nat} {splits : List InputSplit},
    compute_splits_from input W pairs = .ok splits →
    splits = pairs.map fun p => { group := p.1.group, amount := input * p.2 / W } := by
  intro pairs
  induction pairs with
  | nil => intro input W splits h; simp [compute_splits_from] at h; simp_all
  | cons p rest ih =>
    intro input W splits h
    obtain ⟨q, w⟩ := p
    unfold compute_splits_from at h
    cases hm : checked_mul input w with
    | none => rw [hm] at h; exact absurd h (by simp)
    | some scaled =>
      rw [hm] at h
      rw [Option.some_bind] at h
      cases hd : checked_div scaled W with
      | none => rw [hd] at h; exact absurd h (by simp)
      | some amount =>
        rw [hd] at h
        cases hr : compute_splits_from input W rest with
        | error e => rw [hr] at h; exact absurd h (by simp [Except.map])
        | ok l =>
          rw [hr] at h
          simp only [Except.map, Except.ok.injEq] at h
          have hamt : amount = input * w / W := by
            rw [(checked_div_some hd).2, checked_mul_some hm]
          rw [← h, hamt, List.map_cons, ← ih hr]

theorem compute_splits_from_div_ne_zero : ∀ {pairs : List (OutputQuote × Nat)}
    {input W : Nat} {splits : List InputSplit}, pairs ≠ [] →
    compute_splits_from input W pairs = .ok splits → W ≠ 0 := by
  intro pairs input W splits hne h
  cases pairs with
  | nil => exact absurd rfl hne
  | cons p rest =>
    obtain ⟨q, w⟩ := p
    unfold compute_splits_from at h
    cases hm : checked_mul input w with
    | none => rw [hm] at h; exact absurd h (by simp)
    | some scaled =>
      rw [hm] at h
      rw [Option.some_bind] at h
      cases hd : checked_div scaled W with
      | none => rw [hd] at h; exact absurd h (by simp)
      | some amount => exact (checked_div_some hd).1

theorem compute_splits_from_total : ∀ (pairs : List (OutputQuote × Nat)) (input W : Nat),
    (∃ splits, compute_splits_from input W pairs = .ok splits) ∨
      compute_splits_from input W pairs = .error .Overflow := by
  intro pairs
  induction pairs with
  | nil => exact fun input W => .inl ⟨[], rfl⟩
  | cons p rest ih =>
    intro input W
    obtain ⟨q, w⟩ := p
    unfold compute_splits_from
    cases hm : (checked_mul input w).bind fun scaled => checked_div scaled W with
    | none => exact .inr rfl
    | some amount =>
      rcases ih input W with ⟨l, hl⟩ | herr
      · exact .inl ⟨_ :: l, by rw [hl]; rfl⟩
      · exact .inr (by rw [herr]; rfl)

theorem zip_self_map {α β : Type} (l : List α) (f : α → β) :
    l.zip (l.map f) = l.map fun a => (a, f a) := by
  induction l with
  | nil => rfl
  | cons a rest ih => simp [ih]

/-- Full characterization of a successful `compute_output_splits` run:
the splits are exactly `input * weight_i / Σ weight` over the quote list. -/
theorem compute_output_splits_ok {input : Nat} {quotes : List OutputQuote}
    {splits : List InputSplit} (h : compute_output_splits input quotes = .ok splits) :
    splits = quotes.map fun q =>
      { group := q.group, amount := input * weight_spec q / (quotes.map weight_spec).sum } := by
  unfold compute_output_splits at h
  split at h
  · exact absurd h (by simp)
  · rename_i weights hw
    split at h
    · exact absurd h (by simp)
    · rename_i W hs
      have hweq : weights = quotes.map weight_spec := compute_weights_ok hw
      have hWeq : W = (quotes.map weight_spec).sum := by
        have := checked_sum_from_ok hs
        rw [this, hweq]; omega
      have := compute_splits_from_ok h
      rw [this, hweq, zip_self_map, List.map_map, hWeq]
      rfl

/-- On a successful run over a non-empty quote list, the total weight the
splits are divided by is non-zero. -/
theorem compute_output_splits_weight_ne_zero {input : Nat} {quotes : List OutputQuote}
    {splits : List InputSplit} (hne : quotes ≠ [])
    (h : compute_output_splits input quotes = .ok splits) :
    (quotes.map weight_spec).sum ≠ 0 := by
  unfold compute_output_splits at h
  split at h
  · exact absurd h (by simp)
  · rename_i weights hw
    split at h
    · exact absurd h (by simp)
    · rename_i W hs
      have hweq : weights = quotes.map weight_spec := compute_weights_ok hw
      have hWeq : W = (quotes.map weight_spec).sum := by
        have := checked_sum_from_ok hs
        rw [this, hweq]; omega
      have hzne : quotes.zip weights ≠ [] := by
        cases quotes with
        | nil => exact absurd rfl hne
        | cons q rest => cases weights with
          | nil => exact absurd hweq (by simp)
          | cons w ws => simp [List.zip]
      have := compute_splits_from_div_ne_zero hzne h
      rw [← hWeq]; exact this

theorem sum_div_le (input W : Nat) : ∀ l : List Nat,
    ((l.map fun w => input * w / W).sum ≤ input * l.sum / W) := by
  intro l
  induction l with
  | nil => simp
  | cons w rest ih =>
    simp only [List.map_cons, List.sum_cons, Nat.mul_add]
    calc (input * w / W) + ((rest.map fun w => input * w / W).sum)
        ≤ (input * w / W) + (input * rest.sum / W) := by omega
      _ ≤ (input * w + input * rest.sum) / W := Nat.add_div_le_add_div _ _ _

theorem compute_weights_err : ∀ {quotes : List OutputQuote} {e : RadiusPricingError},
    compute_weights quotes = .error e → e = .Overflow := by
  intro quotes
  induction quotes with
  | nil => intro e h; exact absurd h (by simp [compute_weights])
  | cons q rest ih =>
    intro e h
    unfold compute_weights at h
    cases hw : weight_of q with
    | none => rw [hw] at h; simp at h; exact h.symm
    | some w =>
      rw [hw] at h
      cases hr : compute_weights rest with
      | error e2 =>
        rw [hr] at h
        simp only [Except.map, Except.error.injEq] at h
        exact h ▸ ih hr
      | ok ws => rw [hr] at h; exact absurd h (by simp [Except.map])

theorem checked_sum_from_err : ∀ {l : List Nat} {acc : Nat} {e : RadiusPricingError},
    checked_sum_from acc l = .error e → e = .Overflow := by
  intro l
  induction l with
  | nil => intro acc e h; exact absurd h (by simp [checked_sum_from])
  | cons v rest ih =>
    intro acc e h
    unfold checked_sum_from at h
    cases ha : checked_add acc v with
    | none => rw [ha] at h; simp at h; exact h.symm
    | some s => rw [ha] at h; exact ih h

theorem compute_splits_from_err : ∀ {pairs : List (OutputQuote × Nat)}
    {input W : Nat} {e : RadiusPricingError},
    compute_splits_from input W pairs = .error e → e = .Overflow := by
  intro pairs
  induction pairs with
  | nil => intro input W e h; exact absurd h (by simp [compute_splits_from])
  | cons p rest ih =>
    intro input W e h
    obtain ⟨q, w⟩ := p
    unfold compute_splits_from at h
    cases hm : (checked_mul input w).bind fun scaled => checked_div scaled W with
    | none => rw [hm] at h; simp at h; exact h.symm
    | some amount =>
      rw [hm] at h
      cases hr : compute_splits_from input W rest with
      | error e2 =>
        rw [hr] at h
        simp only [Except.map, Except.error.injEq] at h
        exact h ▸ ih hr
      | ok l => rw [hr] at h; exact absurd h (by simp [Except.map])

/-- The only error `compute_output_splits` ever produces is `Overflow`. -/
theorem compute_output_splits_err {input : Nat} {quotes : List OutputQuote}
    {e : RadiusPricingError} (h : compute_output_splits input quotes = .error e) :
    e = .Overflow := by
  unfold compute_output_splits at h
  split at h
  · rename_i e2 hw
    injection h with h2
    exact h2 ▸ compute_weights_err hw
  · rename_i weights hw
    split at h
    · rename_i e2 hs
      injection h with h2
      exact h2 ▸ checked_sum_from_err hs
    · exact compute_splits_from_err h

/-! ## Claim theorems: the proportional-split computation -/

/-- Claim C1: in the one-input-group / N-output-group case, every computed
split for group `i` is exactly `input * weight_i / Σ weight` with
`weight_i = required_i * PRECISION / quoted_i` (`PRECISION = 10^18`); for two
groups requiring 30 and 70, both quoted 100 for the full input 10,000, the
splits are exactly 3,000 and 7,000, and for groups requiring 50 quoted 100
and 50 quoted 200 they are exactly 6,666 and 3,333. -/
theorem radius_proportional_split_formula :
    (∀ (input : Nat) (quotes : List OutputQuote) (splits : List InputSplit),
      compute_output_splits input quotes = .ok splits →
      splits = quotes.map fun q =>
        { group := q.group,
          amount := input * (q.group.required * PRECISION / q.quoted) /
            (quotes.map fun q2 => q2.group.required * PRECISION / q2.quoted).sum }) ∧
    compute_output_splits 10000 [⟨⟨0, 1, 30⟩, 100⟩, ⟨⟨0, 2, 70⟩, 100⟩] =
      .ok [⟨⟨0, 1, 30⟩, 3000⟩, ⟨⟨0, 2, 70⟩, 7000⟩] ∧
    compute_output_splits 10000 [⟨⟨0, 1, 50⟩, 100⟩, ⟨⟨0, 2, 50⟩, 200⟩] =
      .ok [⟨⟨0, 1, 50⟩, 6666⟩, ⟨⟨0, 2, 50⟩, 3333⟩] := by
  refine ⟨?_, by decide, by decide⟩
  intro input quotes splits h
  have := compute_output_splits_ok h
  simpa [weight_spec] using this

/-- Witness for C1: the formula instantiated at the first concrete example. -/
theorem radius_proportional_split_formula_witness :
    ([⟨⟨0, 1, 30⟩, 3000⟩, ⟨⟨0, 2, 70⟩, 7000⟩] : List InputSplit) =
      ([⟨⟨0, 1, 30⟩, 100⟩, ⟨⟨0, 2, 70⟩, 100⟩] : List OutputQuote).map fun q =>
        { group := q.group,
          amount := 10000 * (q.group.required * PRECISION / q.quoted) /
            (([⟨⟨0, 1, 30⟩, 100⟩, ⟨⟨0, 2, 70⟩, 100⟩] : List OutputQuote).map
              fun q2 => q2.group.required * PRECISION / q2.quoted).sum } :=
  radius_proportional_split_formula.1 10000 _ _ (by decide)

/-- Claim C7: a zero round-1 quote makes `compute_output_splits` return the
`Overflow` error (never a division by zero), and the computation as a whole
either succeeds or fails with `Overflow` — every arithmetic step is checked. -/
theorem radius_zero_quote_yields_overflow :
    (∀ (input : Nat) (quotes : List OutputQuote),
      (∃ q ∈ quotes, q.quoted = 0) →
        compute_output_splits input quotes = .error .Overflow) ∧
    (∀ (input : Nat) (quotes : List OutputQuote),
      (∃ splits, compute_output_splits input quotes = .ok splits) ∨
        compute_output_splits input quotes = .error .Overflow) := by
  constructor
  · intro input quotes hz
    unfold compute_output_splits
    rw [compute_weights_err_of_zero hz]
  · intro input quotes
    cases hres : compute_output_splits input quotes with
    | ok splits => exact .inl ⟨splits, rfl⟩
    | error e => exact .inr (by rw [compute_output_splits_err hres])

/-- Witness for C7: both conjuncts at the Rust test's concrete input. -/
theorem radius_zero_quote_yields_overflow_witness :
    compute_output_splits 10000 [⟨⟨0, 1, 50⟩, 0⟩] = .error .Overflow ∧
    ((∃ splits, compute_output_splits 10000 [⟨⟨0, 1, 50⟩, 0⟩] = .ok splits) ∨
      compute_output_splits 10000 [⟨⟨0, 1, 50⟩, 0⟩] = .error .Overflow) :=
  ⟨radius_zero_quote_yields_overflow.1 10000 [⟨⟨0, 1, 50⟩, 0⟩] ⟨⟨⟨0, 1, 50⟩, 0⟩, by simp, rfl⟩,
    radius_zero_quote_yields_overflow.2 10000 [⟨⟨0, 1, 50⟩, 0⟩]⟩

/-- Claim C8: whenever `compute_output_splits` succeeds on a non-empty quote
list, the computed splits sum to at most the input amount. -/
theorem radius_splits_never_exceed_input (input : Nat) (quotes : List OutputQuote)
    (splits : List InputSplit) (hne : quotes ≠ [])
    (h : compute_output_splits input quotes = .ok splits) :
    (splits.map InputSplit.amount).sum ≤ input := by
  have hchar := compute_output_splits_ok h
  have hW := compute_output_splits_weight_ne_zero hne h
  calc (splits.map InputSplit.amount).sum
      = ((quotes.map weight_spec).map fun w =>
          input * w / (quotes.map weight_spec).sum).sum := by
        rw [hchar]; simp only [List.map_map]; rfl
    _ ≤ input * (quotes.map weight_spec).sum / (quotes.map weight_spec).sum :=
        sum_div_le input _ _
    _ = input := Nat.mul_div_cancel input (Nat.pos_of_ne_zero hW)

/-- Witness for C8: the sum bound at the equal-rates concrete example. -/
theorem radius_splits_never_exceed_input_witness :
    ((([⟨⟨0, 1, 30⟩, 3000⟩, ⟨⟨0, 2, 70⟩, 7000⟩] : List InputSplit)).map
      InputSplit.amount).sum ≤ 10000 :=
  radius_splits_never_exceed_input 10000 [⟨⟨0, 1, 30⟩, 100⟩, ⟨⟨0, 2, 70⟩, 100⟩] _
    (by decide) (by decide)

/-- Claim C10: a successful split over a single quote with a nonzero quoted
amount returns exactly one split carrying the full input amount. -/
theorem radius_single_group_full_input (input : Nat) (q : OutputQuote)
    (splits : List InputSplit) (_hq : q.quoted ≠ 0)
    (h : compute_output_splits input [q] = .ok splits) :
    splits = [{ group := q.group, amount := input }] := by
  have hchar := compute_output_splits_ok h
  have hW := compute_output_splits_weight_ne_zero (by simp) h
  simp only [List.map_cons, List.map_nil, List.sum_cons, List.sum_nil,
    Nat.add_zero] at hchar hW
  rw [hchar, Nat.mul_div_cancel input (Nat.pos_of_ne_zero hW)]

/-- Witness for C10: the single-group identity at the Rust test's input. -/
theorem radius_single_group_full_input_witness :
    ([⟨⟨0, 1, 5⟩, 10000⟩] : List InputSplit) = [{ group := ⟨0, 1, 5⟩, amount := 10000 }] :=
  radius_single_group_full_input 10000 ⟨⟨0, 1, 5⟩, 10⟩ _ (by decide) (by decide)

/-! ## Helper lemmas: the static strategy -/

theorem foldl_wrapping_add_proj {α : Type} (f : α → Nat) : ∀ (l : List α) (acc : Nat),
    acc + (l.map f).sum < U256LIMIT →
    l.foldl (fun a x => wrapping_add a (f x)) acc = acc + (l.map f).sum := by
  intro l
  induction l with
  | nil => intro acc h; simp
  | cons x rest ih =>
    intro acc h
    simp only [List.map_cons, List.sum_cons] at h
    have hx : wrapping_add acc (f x) = acc + f x := by
      unfold wrapping_add
      exact Nat.mod_eq_of_lt (by omega)
    simp only [List.foldl_cons, List.map_cons, List.sum_cons, hx]
    rw [ih (acc + f x) (by omega)]
    omega

theorem saturating_add_chain (a b c : Nat) :
    saturating_add (saturating_add a b) c = min (a + b + c) (U256LIMIT - 1) := by
  unfold saturating_add
  omega

theorem gas_cost_exact {ge gp : Nat} (hge : ge < 2 ^ 64) (hgp : gp < 2 ^ 64) :
    wrapping_mul (wrapping_mul ge gp) 1000000000 = ge * gp * 1000000000 := by
  have h1 : ge * gp < 2 ^ 128 := by
    calc ge * gp < 2 ^ 64 * 2 ^ 64 := Nat.mul_lt_mul'' hge hgp
      _ = 2 ^ 128 := by norm_num
  have h2 : ge * gp * 1000000000 < 2 ^ 128 * 1000000000 :=
    (Nat.mul_lt_mul_right (by norm_num)).mpr h1
  have hlim1 : ge * gp < U256LIMIT := by
    unfold U256LIMIT
    calc ge * gp < 2 ^ 128 := h1
      _ ≤ 2 ^ 256 := Nat.pow_le_pow_right (by norm_num) (by norm_num)
  have hlim2 : ge * gp * 1000000000 < U256LIMIT := by
    unfold U256LIMIT
    calc ge * gp * 1000000000 < 2 ^ 128 * 1000000000 := h2
      _ < 2 ^ 256 := by norm_num
  unfold wrapping_mul
  rw [Nat.mod_eq_of_lt hlim1, Nat.mod_eq_of_lt hlim2]

/-- Claim C6: for a non-empty order, the static strategy sums the raw input
and output amounts and is profitable iff
`total_input >= total_output + gas_estimate * gas_price_gwei * 1e9 + min_profit`,
where the cost side is accumulated with saturating addition (clamped at
`U256::MAX`), so an overflowing cost side clamps instead of wrapping. -/
theorem static_profitable_iff (c : StaticPricingClient) (order : SignedOrder)
    (h1 : order.permitted ≠ []) (h2 : order.outputs ≠ [])
    (hge : c.gas_estimate_per_order < 2 ^ 64) (hgp : c.gas_price_gwei < 2 ^ 64)
    (hin : (order.permitted.map TokenPermissions.amount).sum < U256LIMIT)
    (hout : (order.outputs.map Output.amount).sum < U256LIMIT) :
    Static_is_profitable c order = .ok (decide
      (min ((order.outputs.map Output.amount).sum
          + c.gas_estimate_per_order * c.gas_price_gwei * 1000000000
          + c.min_profit_threshold) (U256LIMIT - 1)
        ≤ (order.permitted.map TokenPermissions.amount).sum)) := by
  have htin : calculate_total_input_value order =
      (order.permitted.map TokenPermissions.amount).sum := by
    unfold calculate_total_input_value
    have := foldl_wrapping_add_proj TokenPermissions.amount order.permitted 0 (by omega)
    simpa using this
  have htout : calculate_total_output_value order =
      (order.outputs.map Output.amount).sum := by
    unfold calculate_total_output_value
    have := foldl_wrapping_add_proj Output.amount order.outputs 0 (by omega)
    simpa using this
  unfold Static_is_profitable Static_estimate_fill_cost
  rw [if_neg (by simp [h1]), if_neg (by simp [h2])]
  simp only []
  rw [htin, htout, gas_cost_exact hge hgp, saturating_add_chain]

/-- Witness for C6: a 5-in/3-out order is profitable at zero thresholds. -/
theorem static_profitable_iff_witness :
    Static_is_profitable ⟨0, 0, 0⟩ example_order = .ok true := by
  rw [static_profitable_iff ⟨0, 0, 0⟩ example_order (by decide) (by decide)
    (by decide) (by decide) (by decide) (by decide)]
  decide

/-! ## Helper lemmas: the fixed-table strategy -/

theorem try_sum_ok {c : FixedPricingClient} {acc token amount v : Nat}
    (h : try_sum c acc token amount = .ok v) :
    ∃ info, c.token_info token = some info ∧ v = acc + norm_value info amount := by
  unfold try_sum at h
  split at h
  · exact absurd h (by simp)
  · rename_i info hti
    split at h
    · exact absurd h (by simp)
    · rename_i total hchain
      simp only [Except.ok.injEq] at h
      refine ⟨info, hti, ?_⟩
      cases hs : checked_sub 18 info.decimals with
      | none => rw [hs, Option.none_bind] at hchain; exact absurd hchain (by simp)
      | some exponent =>
        rw [hs, Option.some_bind] at hchain
        cases hp : checked_pow 10 exponent with
        | none => rw [hp, Option.none_bind] at hchain; exact absurd hchain (by simp)
        | some scale =>
          rw [hp, Option.some_bind] at hchain
          cases hm1 : checked_mul info.price_usd scale with
          | none => rw [hm1, Option.none_bind] at hchain; exact absurd hchain (by simp)
          | some multiplier =>
            rw [hm1, Option.some_bind] at hchain
            cases hm2 : checked_mul amount multiplier with
            | none => rw [hm2, Option.none_bind] at hchain; exact absurd hchain (by simp)
            | some normalized =>
              rw [hm2, Option.some_bind] at hchain
              obtain ⟨hd18, hexp⟩ := checked_sub_some hs
              rw [← h, checked_add_some hchain, checked_mul_some hm2,
                checked_mul_some hm1, checked_pow_some hp, hexp, norm_value]

theorem try_fold_sum_ok {c : FixedPricingClient} : ∀ {pairs : List (Nat × Nat)} {acc v : Nat},
    try_fold_sum c acc pairs = .ok v →
    ∃ n, norm_total c pairs = some n ∧ v = acc + n := by
  intro pairs
  induction pairs with
  | nil =>
    intro acc v h
    simp [try_fold_sum] at h
    exact ⟨0, rfl, by omega⟩
  | cons p rest ih =>
    intro acc v h
    obtain ⟨token, amount⟩ := p
    unfold try_fold_sum at h
    cases hts : try_sum c acc token amount with
    | error e => rw [hts] at h; exact absurd h (by simp)
    | ok acc2 =>
      rw [hts] at h
      obtain ⟨info, hinfo, hacc2⟩ := try_sum_ok hts
      obtain ⟨n2, hn2, hv⟩ := ih h
      refine ⟨norm_value info amount + n2, ?_, by omega⟩
      simp [norm_total, hinfo, hn2]

/-- Claim C2: for a non-empty order over known tokens whose checked
arithmetic succeeds, the fixed-table strategy accepts iff
`normalized_input * 100 >= normalized_output * (100 - max_loss_percent)`,
with amounts normalized as `amount * usd_price * 10^(18 - decimals)`;
at `max_loss_percent = 10`, a 900,000-in / 1,000,000-out order of the same
6-decimal token is acceptable while 899,999-in / 1,000,000-out is not. -/
theorem fixed_acceptable_iff :
    (∀ (c : FixedPricingClient) (order : SignedOrder) (b : Bool) (nin nout : Nat),
      is_acceptable c order = .ok b →
      norm_total c (input_pairs order) = some nin →
      norm_total c (output_pairs order) = some nout →
      b = decide (nout * (100 - c.max_loss_percent) ≤ nin * 100)) ∧
    is_acceptable (example_fixed_client 10) (usdc_order 900000 1000000) = .ok true ∧
    is_acceptable (example_fixed_client 10) (usdc_order 899999 1000000) = .ok false := by
  refine ⟨?_, by decide, by decide⟩
  intro c order b nin nout h hnin hnout
  unfold is_acceptable at h
  split at h
  · exact absurd h (by simp)
  · split at h
    · exact absurd h (by simp)
    · split at h
      · exact absurd h (by simp)
      · rename_i nin2 hfin
        split at h
        · exact absurd h (by simp)
        · rename_i nout2 hfout
          split at h
          · exact absurd h (by simp)
          · rename_i lhs hlhs
            split at h
            · exact absurd h (by simp)
            · rename_i rhs hrhs
              simp only [Except.ok.injEq] at h
              obtain ⟨n1, hn1, hv1⟩ := try_fold_sum_ok hfin
              obtain ⟨n2, hn2, hv2⟩ := try_fold_sum_ok hfout
              rw [hnin] at hn1
              rw [hnout] at hn2
              have hnin2 : nin2 = nin := by
                injection hn1 with h1; omega
              have hnout2 : nout2 = nout := by
                injection hn2 with h1; omega
              have hlhs2 : lhs = nin * 100 := by
                rw [checked_mul_some hlhs, hnin2]
              cases hcs : checked_sub 100 c.max_loss_percent with
              | none => rw [hcs] at hrhs; exact absurd hrhs (by simp)
              | some percent =>
                rw [hcs, Option.some_bind] at hrhs
                obtain ⟨hle, hpct⟩ := checked_sub_some hcs
                have hrhs2 : rhs = nout * (100 - c.max_loss_percent) := by
                  rw [checked_mul_some hrhs, hnout2, hpct]
                rw [← h, hlhs2, hrhs2]

/-- Witness for C2: the general conjunct instantiated at the acceptable
boundary case. -/
theorem fixed_acceptable_iff_witness :
    (true : Bool) = decide ((1000000 * 1000000000000 : Nat) * (100 - 10) ≤
      (900000 * 1000000000000 : Nat) * 100) :=
  fixed_acceptable_iff.1 (example_fixed_client 10) (usdc_order 900000 1000000) true
    (900000 * 1000000000000) (1000000 * 1000000000000)
    (by decide) (by decide) (by decide)

/-! ## Claim theorems: empty-order rejection -/

/-- Claim C9: every strategy rejects an order with no inputs with its
`NoInputs` error and an order with inputs but no outputs with its `NoOutputs`
error; for the quoting strategy the result is the same for every quote
service, i.e. the error is produced before any external call. -/
theorem strategies_reject_empty (sc : StaticPricingClient) (fc : FixedPricingClient)
    (order : SignedOrder) :
    (order.permitted = [] →
      Static_estimate_fill_cost sc order = .error .NoInputs ∧
      is_acceptable fc order = .error .NoInputs ∧
      ∀ quote : QuoteFn, Radius_estimate_fill_cost quote order = .error .NoInputs) ∧
    (order.permitted ≠ [] → order.outputs = [] →
      Static_estimate_fill_cost sc order = .error .NoOutputs ∧
      is_acceptable fc order = .error .NoOutputs ∧
      ∀ quote : QuoteFn, Radius_estimate_fill_cost quote order = .error .NoOutputs) := by
  constructor
  · intro hp
    refine ⟨?_, ?_, fun quote => ?_⟩ <;>
      simp [Static_estimate_fill_cost, is_acceptable, Radius_estimate_fill_cost, hp]
  · intro hp ho
    have hpe : order.permitted.isEmpty = false := by
      cases hh : order.permitted with
      | nil => exact absurd hh hp
      | cons a l => simp [hh]
    refine ⟨?_, ?_, fun quote => ?_⟩ <;>
      simp [Static_estimate_fill_cost, is_acceptable, Radius_estimate_fill_cost, hpe, ho]

/-- Witness for C9: both conjuncts at concrete degenerate orders. -/
theorem strategies_reject_empty_witness :
    (Static_estimate_fill_cost ⟨0, 0, 0⟩ ⟨[], 0, 0, [], 0⟩ = .error .NoInputs ∧
      is_acceptable (example_fixed_client 10) ⟨[], 0, 0, [], 0⟩ = .error .NoInputs ∧
      ∀ quote : QuoteFn,
        Radius_estimate_fill_cost quote ⟨[], 0, 0, [], 0⟩ = .error .NoInputs) ∧
    (Static_estimate_fill_cost ⟨0, 0, 0⟩ ⟨[⟨0, 1⟩], 0, 0, [], 0⟩ = .error .NoOutputs ∧
      is_acceptable (example_fixed_client 10) ⟨[⟨0, 1⟩], 0, 0, [], 0⟩ = .error .NoOutputs ∧
      ∀ quote : QuoteFn,
        Radius_estimate_fill_cost quote ⟨[⟨0, 1⟩], 0, 0, [], 0⟩ = .error .NoOutputs) :=
  ⟨(strategies_reject_empty ⟨0, 0, 0⟩ (example_fixed_client 10) ⟨[], 0, 0, [], 0⟩).1 rfl,
    (strategies_reject_empty ⟨0, 0, 0⟩ (example_fixed_client 10) ⟨[⟨0, 1⟩], 0, 0, [], 0⟩).2
      (by decide) rfl⟩

/-! ## Helper lemmas: bit tests -/

theorem bit_pos_eq_mod (n : Nat) : bit_pos n = n % 256 := by
  have := Nat.and_pow_two_sub_one_eq_mod n 8
  simpa [bit_pos, Nat.land, HAnd.hAnd, AndOp.and] using this

theorem land_one_testBit (bitmap k : Nat) :
    (Nat.land (bitmap >>> k) 1 ≠ 0) ↔ Nat.testBit bitmap k = true := by
  have h1 : Nat.land (bitmap >>> k) 1 = (bitmap >>> k) % 2 := Nat.and_one_is_mod _
  rw [h1, Nat.testBit_to_div_mod]
  simp only [decide_eq_true_eq]
  omega

/-! ## Claim theorem: on-chain nonce verification (C4) -/

/-- Claim C4: `unfilled` always issues exactly one bitmap read, at word
position `nonce >> 8`, and tests bit `nonce & 0xFF`: a set bit records the
hash in the filled cache and drops the order, an unset bit keeps it
unchanged, and a failed read keeps the order without touching the cache. -/
theorem unfilled_word_bit_and_fail_open (read : ChainReadFn) (cache : List Nat)
    (order : SignedOrder) :
    (unfilled read cache order).2.1 =
      [(⟨order.orderHash, order.owner, order.nonce >>> 8⟩ : ChainCall)] ∧
    bit_pos order.nonce = order.nonce % 256 ∧
    (read order.owner (order.nonce >>> 8) = none →
      unfilled read cache order =
        (cache, [(⟨order.orderHash, order.owner, order.nonce >>> 8⟩ : ChainCall)],
          some order)) ∧
    (∀ bitmap, read order.owner (order.nonce >>> 8) = some bitmap →
      (Nat.testBit bitmap (order.nonce % 256) = true →
        unfilled read cache order =
          (lru_put cache order.orderHash,
            [(⟨order.orderHash, order.owner, order.nonce >>> 8⟩ : ChainCall)], none)) ∧
      (Nat.testBit bitmap (order.nonce % 256) = false →
        unfilled read cache order =
          (cache, [(⟨order.orderHash, order.owner, order.nonce >>> 8⟩ : ChainCall)],
            some order))) := by
  refine ⟨?_, bit_pos_eq_mod order.nonce, ?_, ?_⟩
  · simp only [unfilled, word_pos]
    cases hread : read order.owner (order.nonce >>> 8) with
    | none => simp
    | some bitmap =>
      by_cases hb : Nat.land (bitmap >>> bit_pos order.nonce) 1 ≠ 0
      · simp [hb]
      · simp [hb]
  · intro hread
    simp only [unfilled, word_pos]
    rw [hread]
  · intro bitmap hread
    constructor
    · intro hbit
      have hcond : Nat.land (bitmap >>> bit_pos order.nonce) 1 ≠ 0 := by
        rw [bit_pos_eq_mod, land_one_testBit]
        exact hbit
      simp only [unfilled, word_pos]
      rw [hread]
      simp [hcond]
    · intro hbit
      have hcond : ¬ Nat.land (bitmap >>> bit_pos order.nonce) 1 ≠ 0 := by
        rw [bit_pos_eq_mod, land_one_testBit]
        simp [hbit]
      simp only [unfilled, word_pos]
      rw [hread]
      simp [hcond]

/-- Witness for C4: the fail-open branch at a concrete failing read. -/
theorem unfilled_word_bit_and_fail_open_witness :
    unfilled (fun _ _ => none) [] example_order =
      ([], [(⟨example_order.orderHash, example_order.owner,
        example_order.nonce >>> 8⟩ : ChainCall)], some example_order) :=
  (unfilled_word_bit_and_fail_open (fun _ _ => none) [] example_order).2.2.1 rfl

/-! ## Helper lemmas: the order pipeline -/

theorem collect_candidates_cons_err (c : StaticPricingClient) (cache : List Nat)
    (e : Nat) (rest : List (Except Nat SignedOrder)) :
    collect_candidates c cache (.error e :: rest) = .error e := rfl

theorem collect_candidates_cons_ok (c : StaticPricingClient) (cache : List Nat)
    (order : SignedOrder) (rest : List (Except Nat SignedOrder)) :
    collect_candidates c cache (.ok order :: rest) =
      if lru_contains cache order.orderHash then collect_candidates c cache rest
      else
        match Static_is_profitable c order with
        | .ok true => (collect_candidates c cache rest).map fun l => order :: l
        | .ok false => collect_candidates c cache rest
        | .error _ => collect_candidates c cache rest := by
  rw [collect_candidates.eq_def]
  by_cases hc : lru_contains cache order.orderHash = true
  · simp [not_in_filled_cache, profitable, hc]
  · cases hp : Static_is_profitable c order with
    | ok b => cases b <;> simp [not_in_filled_cache, profitable, hc, hp]
    | error e => simp [not_in_filled_cache, profitable, hc, hp]

theorem collect_candidates_err_mem {c : StaticPricingClient} {cache : List Nat} :
    ∀ {stream : List (Except Nat SignedOrder)} {e : Nat},
      collect_candidates c cache stream = .error e → Except.error e ∈ stream := by
  intro stream
  induction stream with
  | nil => intro e h; exact absurd h (by simp [collect_candidates])
  | cons item rest ih =>
    intro e h
    cases item with
    | error e2 =>
      rw [collect_candidates_cons_err] at h
      injection h with h2
      simp [h2]
    | ok order =>
      rw [collect_candidates_cons_ok] at h
      by_cases hc : lru_contains cache order.orderHash = true
      · rw [if_pos hc] at h
        exact List.mem_cons_of_mem _ (ih h)
      · rw [if_neg hc] at h
        split at h
        · cases hr : collect_candidates c cache rest with
          | error e3 =>
            rw [hr] at h
            simp only [Except.map, Except.error.injEq] at h
            exact List.mem_cons_of_mem _ (h ▸ ih hr)
          | ok l => rw [hr] at h; exact absurd h (by simp [Except.map])
        · exact List.mem_cons_of_mem _ (ih h)
        · exact List.mem_cons_of_mem _ (ih h)

theorem collect_candidates_err_of_mem {c : StaticPricingClient} {cache : List Nat} :
    ∀ {stream : List (Except Nat SignedOrder)} {e : Nat},
      Except.error e ∈ stream → ∃ e2, collect_candidates c cache stream = .error e2 := by
  intro stream
  induction stream with
  | nil => intro e hmem; exact absurd hmem (by simp)
  | cons item rest ih =>
    intro e hmem
    cases item with
    | error e2 => exact ⟨e2, collect_candidates_cons_err c cache e2 rest⟩
    | ok order =>
      have hmem2 : Except.error e ∈ rest := by
        rcases List.mem_cons.mp hmem with heq | h2
        · exact absurd heq (by simp)
        · exact h2
      obtain ⟨e2, he2⟩ := ih hmem2
      rw [collect_candidates_cons_ok]
      by_cases hc : lru_contains cache order.orderHash = true
      · rw [if_pos hc]; exact ⟨e2, he2⟩
      · rw [if_neg hc]
        refine ⟨e2, ?_⟩
        split
        · rw [he2]; rfl
        · exact he2
        · exact he2

theorem collect_candidates_sound {c : StaticPricingClient} {cache : List Nat} :
    ∀ {stream : List (Except Nat SignedOrder)} {l : List SignedOrder},
      collect_candidates c cache stream = .ok l →
      ∀ o ∈ l, Except.ok o ∈ stream ∧ Static_is_profitable c o = .ok true ∧
        lru_contains cache o.orderHash = false := by
  intro stream
  induction stream with
  | nil =>
    intro l h o ho
    simp [collect_candidates] at h
    subst h
    exact absurd ho (by simp)
  | cons item rest ih =>
    intro l h o ho
    cases item with
    | error e => rw [collect_candidates_cons_err] at h; exact absurd h (by simp)
    | ok order =>
      rw [collect_candidates_cons_ok] at h
      by_cases hc : lru_contains cache order.orderHash = true
      · rw [if_pos hc] at h
        obtain ⟨hm, hp, hnc⟩ := ih h o ho
        exact ⟨List.mem_cons_of_mem _ hm, hp, hnc⟩
      · rw [if_neg hc] at h
        split at h
        · rename_i hp
          cases hr : collect_candidates c cache rest with
          | error e => rw [hr] at h; exact absurd h (by simp [Except.map])
          | ok l2 =>
            rw [hr] at h
            simp only [Except.map, Except.ok.injEq] at h
            rw [← h] at ho
            rcases List.mem_cons.mp ho with rfl | ho2
            · exact ⟨by simp, hp, by simpa using hc⟩
            · obtain ⟨hm, hp2, hnc⟩ := ih hr o ho2
              exact ⟨List.mem_cons_of_mem _ hm, hp2, hnc⟩
        · obtain ⟨hm, hp2, hnc⟩ := ih h o ho
          exact ⟨List.mem_cons_of_mem _ hm, hp2, hnc⟩
        · obtain ⟨hm, hp2, hnc⟩ := ih h o ho
          exact ⟨List.mem_cons_of_mem _ hm, hp2, hnc⟩

theorem unfilled_calls_eq (read : ChainReadFn) (cache : List Nat) (order : SignedOrder) :
    (unfilled read cache order).2.1 =
      [(⟨order.orderHash, order.owner, word_pos order.nonce⟩ : ChainCall)] := by
  simp only [unfilled]
  cases read order.owner (word_pos order.nonce) with
  | none => simp
  | some bitmap =>
    by_cases hb : Nat.land (bitmap >>> bit_pos order.nonce) 1 ≠ 0 <;> simp [hb]

theorem unfilled_keep {read : ChainReadFn} {cache : List Nat} {order o2 : SignedOrder}
    (h : (unfilled read cache order).2.2 = some o2) : o2 = order := by
  simp only [unfilled] at h
  cases hread : read order.owner (word_pos order.nonce) with
  | none => rw [hread] at h; simp at h; exact h.symm
  | some bitmap =>
    rw [hread] at h
    by_cases hb : Nat.land (bitmap >>> bit_pos order.nonce) 1 ≠ 0
    · simp [hb] at h
    · simp [hb] at h; exact h.symm

theorem verify_all_sub {read : ChainReadFn} : ∀ {l : List SignedOrder} {cache : List Nat}
    {o : SignedOrder}, o ∈ (verify_all read cache l).2.2 → o ∈ l := by
  intro l
  induction l with
  | nil => intro cache o h; simp [verify_all] at h
  | cons order rest ih =>
    intro cache o h
    simp only [verify_all] at h
    rcases List.mem_append.mp h with h1 | h2
    · have : (unfilled read cache order).2.2 = some o := by
        cases hopt : (unfilled read cache order).2.2 with
        | none => rw [hopt] at h1; exact absurd h1 (by simp)
        | some o3 => rw [hopt] at h1; simp at h1; rw [h1]
      rw [unfilled_keep this]
      simp
    · exact List.mem_cons_of_mem _ (ih h2)

theorem verify_all_calls_from {read : ChainReadFn} : ∀ {l : List SignedOrder}
    {cache : List Nat} {call : ChainCall},
    call ∈ (verify_all read cache l).2.1 → ∃ o ∈ l, call.order_hash = o.orderHash := by
  intro l
  induction l with
  | nil => intro cache call h; simp [verify_all] at h
  | cons order rest ih =>
    intro cache call h
    simp only [verify_all] at h
    rcases List.mem_append.mp h with h1 | h2
    · rw [unfilled_calls_eq] at h1
      simp at h1
      exact ⟨order, by simp, by rw [h1]⟩
    · obtain ⟨o, ho, heq⟩ := ih h2
      exact ⟨o, List.mem_cons_of_mem _ ho, heq⟩

theorem process_orders_result_none {c : StaticPricingClient} {cache : List Nat}
    {stream : List (Except Nat SignedOrder)} {read : ChainReadFn}
    {submit : List SignedOrder → Except Nat Nat} {l : List SignedOrder}
    (hcol : collect_candidates c cache stream = .ok l) :
    (process_orders c cache stream read submit).result = none := by
  unfold process_orders
  rw [hcol]
  by_cases he : l.isEmpty = true
  · simp [he]
  · by_cases hv : (verify_all read cache l).2.2.isEmpty = true
    · simp [he, hv]
    · cases hs : submit (verify_all read cache l).2.2 <;> simp [he, hv, hs]

theorem process_orders_result_err {c : StaticPricingClient} {cache : List Nat}
    {stream : List (Except Nat SignedOrder)} {read : ChainReadFn}
    {submit : List SignedOrder → Except Nat Nat} {e : Nat}
    (hcol : collect_candidates c cache stream = .error e) :
    process_orders c cache stream read submit =
      { result := some e, cache := cache, calls := [], submitted := [], bundle_id := none } := by
  unfold process_orders
  rw [hcol]

theorem process_orders_submitted_sub {c : StaticPricingClient} {cache : List Nat}
    {stream : List (Except Nat SignedOrder)} {read : ChainReadFn}
    {submit : List SignedOrder → Except Nat Nat} {o : SignedOrder}
    (h : o ∈ (process_orders c cache stream read submit).submitted) :
    ∃ l, collect_candidates c cache stream = .ok l ∧ o ∈ l := by
  unfold process_orders at h
  split at h
  · simp at h
  · rename_i l hcol
    refine ⟨l, hcol, ?_⟩
    by_cases he : l.isEmpty = true
    · simp [he] at h
    · by_cases hv : (verify_all read cache l).2.2.isEmpty = true
      · simp [he, hv] at h
      · cases hs : submit (verify_all read cache l).2.2 <;> simp [he, hv, hs] at h <;>
          exact verify_all_sub h

theorem process_orders_calls_sub {c : StaticPricingClient} {cache : List Nat}
    {stream : List (Except Nat SignedOrder)} {read : ChainReadFn}
    {submit : List SignedOrder → Except Nat Nat} {call : ChainCall}
    (h : call ∈ (process_orders c cache stream read submit).calls) :
    ∃ l, collect_candidates c cache stream = .ok l ∧
      ∃ o ∈ l, call.order_hash = o.orderHash := by
  unfold process_orders at h
  split at h
  · simp at h
  · rename_i l hcol
    refine ⟨l, hcol, ?_⟩
    by_cases he : l.isEmpty = true
    · simp [he] at h
    · by_cases hv : (verify_all read cache l).2.2.isEmpty = true
      · simp [he, hv] at h
        exact verify_all_calls_from h
      · cases hs : submit (verify_all read cache l).2.2 <;> simp [he, hv, hs] at h <;>
          exact verify_all_calls_from h

theorem process_orders_submit_indep (c : StaticPricingClient) (cache : List Nat)
    (stream : List (Except Nat SignedOrder)) (read : ChainReadFn)
    (submit1 submit2 : List SignedOrder → Except Nat Nat) :
    (process_orders c cache stream read submit1).result =
      (process_orders c cache stream read submit2).result ∧
    (process_orders c cache stream read submit1).cache =
      (process_orders c cache stream read submit2).cache ∧
    (process_orders c cache stream read submit1).calls =
      (process_orders c cache stream read submit2).calls ∧
    (process_orders c cache stream read submit1).submitted =
      (process_orders c cache stream read submit2).submitted := by
  unfold process_orders
  cases collect_candidates c cache stream with
  | error e => simp
  | ok l =>
    by_cases he : l.isEmpty = true
    · simp [he]
    · by_cases hv : (verify_all read cache l).2.2.isEmpty = true
      · simp [he, hv]
      · cases hs1 : submit1 (verify_all read cache l).2.2 <;>
          cases hs2 : submit2 (verify_all read cache l).2.2 <;>
            simp [he, hv, hs1, hs2]

/-! ## Claim theorem: cycle-level error handling (C5) -/

/-- Claim C5: a pipeline cycle returns an error exactly when the fetched
order stream contains an error item; every order in the submitted bundle
passed the profitability check (a pricing error only drops that order, it
never aborts the cycle); and the submission outcome changes nothing but the
reported bundle id — a failed submission still completes the cycle. -/
theorem process_orders_error_iff_fetch (c : StaticPricingClient) (cache : List Nat)
    (stream : List (Except Nat SignedOrder)) (read : ChainReadFn)
    (submit : List SignedOrder → Except Nat Nat) :
    ((process_orders c cache stream read submit).result ≠ none ↔
      ∃ e, Except.error e ∈ stream) ∧
    (∀ o ∈ (process_orders c cache stream read submit).submitted,
      Static_is_profitable c o = .ok true) ∧
    (∀ submit2 : List SignedOrder → Except Nat Nat,
      (process_orders c cache stream read submit2).result =
        (process_orders c cache stream read submit).result ∧
      (process_orders c cache stream read submit2).cache =
        (process_orders c cache stream read submit).cache ∧
      (process_orders c cache stream read submit2).calls =
        (process_orders c cache stream read submit).calls ∧
      (process_orders c cache stream read submit2).submitted =
        (process_orders c cache stream read submit).submitted) := by
  refine ⟨?_, ?_, ?_⟩
  · cases hcol : collect_candidates c cache stream with
    | error e =>
      rw [process_orders_result_err hcol]
      exact iff_of_true (by simp) ⟨e, collect_candidates_err_mem hcol⟩
    | ok l =>
      rw [process_orders_result_none hcol]
      refine iff_of_false (by simp) ?_
      rintro ⟨e, hmem⟩
      obtain ⟨e2, he2⟩ := collect_candidates_err_of_mem hmem
      rw [hcol] at he2
      exact absurd he2 (by simp)
  · intro o ho
    obtain ⟨l, hcol, hl⟩ := process_orders_submitted_sub ho
    exact (collect_candidates_sound hcol o hl).2.1
  · intro submit2
    exact process_orders_submit_indep c cache stream read submit2 submit

/-- Witness for C5: a stream holding one fetch error makes the cycle fail. -/
theorem process_orders_error_iff_fetch_witness :
    (process_orders ⟨0, 0, 0⟩ [] [Except.error 3] (fun _ _ => none)
      (fun _ => .ok 0)).result ≠ none :=
  (process_orders_error_iff_fetch ⟨0, 0, 0⟩ [] [Except.error 3] (fun _ _ => none)
    (fun _ => .ok 0)).1.mpr ⟨3, by simp⟩

/-! ## Helper lemmas: filled-cache soundness -/

theorem lru_put_mem {cache : List Nat} {h h2 : Nat} (hm : h2 ∈ lru_put cache h) :
    h2 = h ∨ h2 ∈ cache := by
  unfold lru_put at hm
  have hm2 := List.take_subset _ _ hm
  rcases List.mem_cons.mp hm2 with rfl | h3
  · exact .inl rfl
  · exact .inr (List.erase_subset _ _ h3)

theorem unfilled_cache_mem {read : ChainReadFn} {cache : List Nat} {order : SignedOrder}
    {h2 : Nat} (hm : h2 ∈ (unfilled read cache order).1) :
    h2 ∈ cache ∨ (h2 = order.orderHash ∧ ∃ bm,
      read order.owner (word_pos order.nonce) = some bm ∧
      Nat.testBit bm (order.nonce % 256) = true) := by
  simp only [unfilled] at hm
  cases hread : read order.owner (word_pos order.nonce) with
  | none => rw [hread] at hm; simp at hm; exact .inl hm
  | some bm =>
    rw [hread] at hm
    by_cases hb : Nat.land (bm >>> bit_pos order.nonce) 1 ≠ 0
    · simp [hb] at hm
      rcases lru_put_mem hm with heq | hmem
      · refine .inr ⟨heq, bm, rfl, ?_⟩
        rw [bit_pos_eq_mod] at hb
        exact (land_one_testBit _ _).mp hb
      · exact .inl hmem
    · simp [hb] at hm
      exact .inl hm

theorem verify_all_cache_mem {read : ChainReadFn} : ∀ {l : List SignedOrder}
    {cache : List Nat} {h2 : Nat}, h2 ∈ (verify_all read cache l).1 →
    h2 ∈ cache ∨ ∃ o ∈ l, h2 = o.orderHash ∧ ∃ bm,
      read o.owner (word_pos o.nonce) = some bm ∧
      Nat.testBit bm (o.nonce % 256) = true := by
  intro l
  induction l with
  | nil => intro cache h2 hm; simp [verify_all] at hm; exact .inl hm
  | cons order rest ih =>
    intro cache h2 hm
    simp only [verify_all] at hm
    rcases ih hm with hmem | ⟨o, ho, hrest⟩
    · rcases unfilled_cache_mem hmem with h | ⟨heq, hev⟩
      · exact .inl h
      · exact .inr ⟨order, by simp, heq, hev⟩
    · exact .inr ⟨o, List.mem_cons_of_mem _ ho, hrest⟩

theorem process_orders_cache_mem {c : StaticPricingClient} {cache : List Nat}
    {stream : List (Except Nat SignedOrder)} {read : ChainReadFn}
    {submit : List SignedOrder → Except Nat Nat} {h2 : Nat}
    (hm : h2 ∈ (process_orders c cache stream read submit).cache) :
    h2 ∈ cache ∨ ∃ o bm, Except.ok o ∈ stream ∧ h2 = o.orderHash ∧
      read o.owner (word_pos o.nonce) = some bm ∧
      Nat.testBit bm (o.nonce % 256) = true := by
  unfold process_orders at hm
  split at hm
  · simp at hm; exact .inl hm
  · rename_i l hcol
    by_cases he : l.isEmpty = true
    · simp [he] at hm; exact .inl hm
    · have hm2 : h2 ∈ (verify_all read cache l).1 := by
        by_cases hv : (verify_all read cache l).2.2.isEmpty = true
        · simpa [he, hv] using hm
        · cases hs : submit (verify_all read cache l).2.2 <;>
            simpa [he, hv, hs] using hm
      rcases verify_all_cache_mem hm2 with h | ⟨o, ho, heq, bm, hread, hbit⟩
      · exact .inl h
      · exact .inr ⟨o, bm, (collect_candidates_sound hcol o ho).1, heq, hread, hbit⟩

theorem run_cycles_mem {c : StaticPricingClient} : ∀ {cycles : List CycleInput}
    {cache : List Nat} {h2 : Nat}, h2 ∈ run_cycles c cache cycles →
    h2 ∈ cache ∨ ∃ ci ∈ cycles, observed_filled ci h2 := by
  intro cycles
  induction cycles with
  | nil => intro cache h2 hm; simp [run_cycles] at hm; exact .inl hm
  | cons ci rest ih =>
    intro cache h2 hm
    simp only [run_cycles] at hm
    rcases ih hm with hmem | ⟨ci2, hci2, hobs⟩
    · rcases process_orders_cache_mem hmem with h | ⟨o, bm, hos, heq, hread, hbit⟩
      · exact .inl h
      · exact .inr ⟨ci, by simp, o, bm, hos, heq.symm, hread, hbit⟩
    · exact .inr ⟨ci2, List.mem_cons_of_mem _ hci2, hobs⟩

/-! ## Claim theorem: filled-cache soundness (C3) -/

/-- Claim C3: starting from an empty cache, an order hash is in the
filled-order cache only if a prior cycle's on-chain nonce-bitmap read
observed that order's nonce bit set; and for an order whose hash already sits
in the cache, the cycle issues no on-chain call for that hash and never
submits an order with that hash. -/
theorem filled_cache_only_on_chain_evidence :
    (∀ (c : StaticPricingClient) (cycles : List CycleInput) (h : Nat),
      h ∈ run_cycles c [] cycles → ∃ ci ∈ cycles, observed_filled ci h) ∧
    (∀ (c : StaticPricingClient) (cache : List Nat)
        (stream : List (Except Nat SignedOrder)) (read : ChainReadFn)
        (submit : List SignedOrder → Except Nat Nat) (order : SignedOrder),
      order.orderHash ∈ cache →
      (∀ call ∈ (process_orders c cache stream read submit).calls,
        call.order_hash ≠ order.orderHash) ∧
      (∀ o ∈ (process_orders c cache stream read submit).submitted,
        o.orderHash ≠ order.orderHash)) := by
  constructor
  · intro c cycles h hm
    rcases run_cycles_mem hm with hmem | hobs
    · exact absurd hmem (by simp)
    · exact hobs
  · intro c cache stream read submit order hcache
    constructor
    · intro call hcall
      obtain ⟨l, hcol, o, ho, heq⟩ := process_orders_calls_sub hcall
      have hnc := (collect_candidates_sound hcol o ho).2.2
      intro hcontra
      rw [hcontra] at heq
      rw [← heq] at hnc
      have : order.orderHash ∉ cache := by simpa [lru_contains] using hnc
      exact this hcache
    · intro o ho
      obtain ⟨l, hcol, hl⟩ := process_orders_submitted_sub ho
      have hnc := (collect_candidates_sound hcol o hl).2.2
      intro hcontra
      rw [hcontra] at hnc
      have : order.orderHash ∉ cache := by simpa [lru_contains] using hnc
      exact this hcache

/-- Witness for C3: after one cycle observing `example_order`'s nonce bit
set, its hash in the cache is explained by that observation. -/
theorem filled_cache_only_on_chain_evidence_witness :
    ∃ ci ∈ [example_cycle], observed_filled ci 42 :=
  filled_cache_only_on_chain_evidence.1 ⟨0, 0, 0⟩ [example_cycle] 42 (by decide)

end SignetFiller
